import Mathlib

/-
  Verification of the SubstrateTaskAuction pallet
  (src/pallets/task_auction/src/lib.rs) against its natural-language
  specification.

  Shallow embedding conventions:
  * `AccountId` (`u64` in the mock runtime) is `Nat`; balances (`u128`) are
    `Nat`; block numbers (`u64`) are `Nat`.  Overflow of `u128`/`u64`
    additions is immaterial to the verified claims; the one place where a
    machine-width conversion matters, `saturated_into::<u32>()` inside
    `Auction::get_base_price`, is modelled explicitly by `satU32`.
  * Block-number subtraction in `get_base_price` is `Nat` (truncated)
    subtraction.  For every live auction record the engine guarantees
    `initial_block ≤ now` (proved below from reachability), and on that
    domain truncated and machine subtraction agree.
  * A Rust tuple component `.0` is `.1` in Lean, `.1` is `.2`.
  * Storage maps (`Auctions`, `Bids`) are modelled as functions into
    `Option`; the ledger (`pallet_balances` through the
    `ReservableCurrency` trait) is a pair of balance functions.
  * Each dispatchable returns the post-state together with an `Outcome`.
    The pallet targets a pre-transactional FRAME: an extrinsic that
    returns `Err` keeps all storage/ledger mutations made before the
    failure point, so error paths return the mutated state.  A source
    `.unwrap()` that would panic is modelled by the `Outcome.diverged`
    marker (a panicking extrinsic commits nothing, so such results are
    excluded from the reachability step relation).
  * `dispatch` models the host's `CheckNonce` signed extension, which
    increments the signer's account nonce before the call body runs, and
    the block clock, which may advance between calls.
-/

namespace TaskAuction

/-- The `T::AccountId` (`u64` in the mock runtime). -/
abbrev AccountId := Nat

/-- The `Key<T> = (AccountId, Index)`: auction keys and bid keys. -/
abbrev AKey := AccountId × Nat

/-- The `Key::<T>::default()`, the sentinel key under which the bid-stack head
is stored. -/
def sentinel : AKey := (0, 0)

/-- The `Error<T>` of the pallet, extended with the ledger error that
`T::Currency::reserve` propagates (`pallet_balances`'s
`InsufficientBalance`). -/
inductive Err where
  | AuctionKeyNotFound
  | AuctionAssigned
  | AuctionNotAssigned
  | AuctionDisputed
  | AuctionNotDisputed
  | MinBountyRequired
  | MinDepositRequired
  | MinBidRatioRequired
  | MaxDataSizeExceeded
  | TopBidRequired
  | OwnerRequired
  | OriginProhibited
  | InsufficientBalance
  deriving DecidableEq, Repr

/-- The `Event<T>` of the pallet. -/
inductive Event where
  | Created (auction_key : AKey) (bounty terminal_block : Nat)
  | Extended (auction_key : AKey) (bounty terminal_block : Nat)
  | Bid (auction_key bid_key : AKey) (price : Nat)
  | Retracted (auction_key bid_key : AKey) (price : Nat)
  | Confirmed (auction_key : AKey)
  | Cancelled (auction_key : AKey)
  | Disputed (auction_key : AKey)
  | Arbitrated (auction_key : AKey) (fulfilled : Bool)
  deriving DecidableEq, Repr

/-- Result marker of one dispatchable call.  `diverged` stands for a source
`.unwrap()` that would panic (such a call commits nothing on-chain). -/
inductive Outcome where
  | ok (e : Event)
  | err (e : Err)
  | diverged
  deriving DecidableEq, Repr

/-- Pointwise update of a balance function. -/
def updFn (f : AccountId → Nat) (a : AccountId) (v : Nat) : AccountId → Nat :=
  fun x => if x = a then v else f x

/-- The external ledger: free and reserved balance per account
(`Currency` / `ReservableCurrency`). -/
structure Ledger where
  free : AccountId → Nat
  reserved : AccountId → Nat

/-- The `ReservableCurrency::reserve`: moves `amt` from free to reserved,
failing (with `InsufficientBalance`) iff the free balance is too small. -/
def Ledger.reserve (l : Ledger) (who : AccountId) (amt : Nat) : Option Ledger :=
  if amt ≤ l.free who then
    some ⟨updFn l.free who (l.free who - amt), updFn l.reserved who (l.reserved who + amt)⟩
  else
    none

/-- The `ReservableCurrency::unreserve`: moves `amt` from reserved to free,
clamped at the available reserved balance; never fails. -/
def Ledger.unreserve (l : Ledger) (who : AccountId) (amt : Nat) : Ledger :=
  ⟨updFn l.free who (l.free who + min amt (l.reserved who)),
   updFn l.reserved who (l.reserved who - min amt (l.reserved who))⟩

/-- The `Currency::transfer` (with `ExistenceRequirement::AllowDeath`): moves
`amt` between free balances, failing iff the source's free balance is too
small. -/
def Ledger.transfer (l : Ledger) (src dst : AccountId) (amt : Nat) : Option Ledger :=
  if amt ≤ l.free src then
    let f := updFn l.free src (l.free src - amt)
    some ⟨updFn f dst (f dst + amt), l.reserved⟩
  else
    none

/-- The pallet `Config` constants.  `MinBidRatio` is a `u8`, embedded as
`Fin 256`. -/
structure Config where
  minBounty : Nat
  minDeposit : Nat
  minBidRatio : Fin 256
  maxDataSize : Nat

/-- The `Auction<T>` storage record. -/
structure Auction where
  arbitrator : AccountId
  bounty : Nat
  deposit : Nat
  initial_block : Nat
  terminal_block : Nat
  data : List Nat
  in_dispute : Bool
  deriving DecidableEq, Repr

/-- The `u32::MAX`, the saturation bound of `saturated_into::<u32>()`. -/
def U32MAX : Nat := 4294967295

/-- The `saturated_into::<u32>()` on a block-number difference. -/
def satU32 (n : Nat) : Nat := min n U32MAX

/-- The `Auction::get_base_price` (lib.rs lines 408-416), with the current
block height passed explicitly.  The source computes
`bounty * (now - initial_block).saturated_into::<u32>() /
 (terminal_block - initial_block).saturated_into::<u32>()`
when `now < terminal_block` and returns `bounty` otherwise. -/
def Auction.get_base_price (a : Auction) (now : Nat) : Nat :=
  if now < a.terminal_block then
    a.bounty * satU32 (now - a.initial_block) / satU32 (a.terminal_block - a.initial_block)
  else
    a.bounty

/-- The `Auction::is_assigned` (lib.rs lines 418-420):
`top_bid <= self.get_base_price()`. -/
def Auction.is_assigned (a : Auction) (top_bid : Nat) (now : Nat) : Prop :=
  top_bid ≤ a.get_base_price now

instance (a : Auction) (p now : Nat) : Decidable (a.is_assigned p now) :=
  inferInstanceAs (Decidable (p ≤ a.get_base_price now))

/-- The whole persistent state the pallet interacts with: the two storage
maps, the ledger, the per-account nonces of `frame_system`, and the block
clock. -/
structure State where
  auctions : AKey → Option Auction
  bids : AKey → AKey → Option (AKey × Nat)
  ledger : Ledger
  nonce : AccountId → Nat
  now : Nat

/-- The `Auctions::insert`. -/
def insertAuction (s : State) (k : AKey) (a : Auction) : State :=
  { s with auctions := fun x => if x = k then some a else s.auctions x }

/-- The `Auctions::remove`. -/
def removeAuction (s : State) (k : AKey) : State :=
  { s with auctions := fun x => if x = k then none else s.auctions x }

/-- Insert into the per-auction bid map (`Bids::insert`). -/
def insBid (m : AKey → Option (AKey × Nat)) (bk : AKey) (v : AKey × Nat) :
    AKey → Option (AKey × Nat) :=
  fun x => if x = bk then some v else m x

/-- Remove one entry from the per-auction bid map (the removal half of
`Bids::take`). -/
def remBid (m : AKey → Option (AKey × Nat)) (bk : AKey) : AKey → Option (AKey × Nat) :=
  fun x => if x = bk then none else m x

/-- The `Bids::insert(&auction_key, &bid_key, v)` on the state. -/
def insertBid (s : State) (k bk : AKey) (v : AKey × Nat) : State :=
  { s with bids := fun x => if x = k then insBid (s.bids k) bk v else s.bids x }

/-- The `Bids::remove_prefix(&auction_key, None)` on the state. -/
def clearBids (s : State) (k : AKey) : State :=
  { s with bids := fun x => if x = k then (fun _ => none) else s.bids x }

/-- The `create` (lib.rs lines 120-159).  The signer's nonce has already been
bumped by `dispatch` (see below), matching `CheckNonce` which increments
before the call body reads `account_nonce`. -/
def create (cfg : Config) (s : State) (owner arbitrator : AccountId)
    (bounty deposit terminal_block : Nat) (data : List Nat) : State × Outcome :=
  let initial_block := s.now
  if ¬ (cfg.minBounty ≤ bounty) then (s, .err .MinBountyRequired)
  else if ¬ (cfg.minDeposit ≤ deposit) then (s, .err .MinDepositRequired)
  else if ¬ (data.length ≤ cfg.maxDataSize) then (s, .err .MaxDataSizeExceeded)
  else
    match s.ledger.reserve owner (bounty + deposit) with
    | none => (s, .err .InsufficientBalance)
    | some led =>
      let auction_key : AKey := (owner, s.nonce owner)
      let a : Auction :=
        ⟨arbitrator, bounty, deposit, initial_block, terminal_block, data, false⟩
      (insertAuction { s with ledger := led } auction_key a,
       .ok (.Created auction_key bounty terminal_block))

/-- The tail of `extend` after the assignment check (lib.rs lines 177-186). -/
def extendFinish (s : State) (owner : AccountId) (auction_key : AKey) (auction : Auction)
    (bounty terminal_block : Nat) : State × Outcome :=
  if ¬ (auction.bounty < bounty) then (s, .err .MinBountyRequired)
  else
    match s.ledger.reserve owner (bounty - auction.bounty) with
    | none => (s, .err .InsufficientBalance)
    | some led =>
      (insertAuction { s with ledger := led } auction_key
         { auction with bounty := bounty, terminal_block := terminal_block },
       .ok (.Extended auction_key bounty terminal_block))

/-- The `extend` (lib.rs lines 161-187). -/
def extend (s : State) (owner : AccountId) (auction_key : AKey)
    (bounty terminal_block : Nat) : State × Outcome :=
  match s.auctions auction_key with
  | none => (s, .err .AuctionKeyNotFound)
  | some auction =>
    if ¬ (owner = auction_key.1) then (s, .err .OwnerRequired)
    else
      match s.bids auction_key sentinel with
      | some (_, price) =>
        if auction.is_assigned price s.now then (s, .err .AuctionAssigned)
        else extendFinish s owner auction_key auction bounty terminal_block
      | none => extendFinish s owner auction_key auction bounty terminal_block

/-- The tail of `bid` after the price checks (lib.rs lines 219-227): the
fallible reserve of the new bidder's deposit, then the two `Bids` inserts.
Note that when the reserve fails the error is returned on the state `s`
already holding the earlier `unreserve` of the previous bidder, as on a
pre-transactional FRAME runtime. -/
def bidFinish (s : State) (bidder : AccountId) (auction_key : AKey) (auction : Auction)
    (prev_key : AKey) (price : Nat) : State × Outcome :=
  match s.ledger.reserve bidder auction.deposit with
  | none => (s, .err .InsufficientBalance)
  | some led =>
    let bid_key : AKey := (bidder, prev_key.2 + 1)
    let s1 := insertBid { s with ledger := led } auction_key bid_key (prev_key, price)
    let s2 := insertBid s1 auction_key sentinel (bid_key, price)
    (s2, .ok (.Bid auction_key bid_key price))

/-- The `bid` (lib.rs lines 189-228). -/
def bid (cfg : Config) (s : State) (bidder : AccountId) (auction_key : AKey)
    (price : Nat) : State × Outcome :=
  match s.auctions auction_key with
  | none => (s, .err .AuctionKeyNotFound)
  | some auction =>
    if bidder = auction_key.1 then (s, .err .OriginProhibited)
    else if bidder = auction.arbitrator then (s, .err .OriginProhibited)
    else
      match s.bids auction_key sentinel with
      | some (prev_key, prev_price) =>
        if auction.is_assigned prev_price s.now then (s, .err .AuctionAssigned)
        else if ¬ (price * 255 < prev_price * cfg.minBidRatio.val) then
          (s, .err .MinBidRatioRequired)
        else
          bidFinish { s with ledger := s.ledger.unreserve prev_key.1 auction.deposit }
            bidder auction_key auction prev_key price
      | none =>
        if ¬ (price ≤ auction.bounty) then (s, .err .MinBidRatioRequired)
        else bidFinish s bidder auction_key auction sentinel price

/-- The descent loop of `retract` (lib.rs lines 253-273), fuel-indexed to
make the recursion structural.  Returns the rewritten per-auction bid map,
the ledger, and the `(bid_key, price)` pair of the emitted event; `none`
models either fuel exhaustion or a source `.unwrap()` that would panic
(neither occurs on well-formed stacks, as proved below). -/
def retractLoop (deposit bounty : Nat) :
    Nat → (AKey → Option (AKey × Nat)) → Ledger → AKey →
    Option ((AKey → Option (AKey × Nat)) × Ledger × AKey × Nat)
  | 0, _, _, _ => none
  | fuel + 1, m, led, top_key =>
    match m top_key with
    | none => none
    | some (prev_key, _) =>
      let m1 := remBid m top_key
      if prev_key = sentinel then
        some (fun _ => none, led, prev_key, bounty)
      else
        match led.reserve prev_key.1 deposit with
        | some led1 =>
          match m1 prev_key with
          | none => none
          | some (_, prev_price) =>
            some (insBid m1 sentinel (prev_key, prev_price), led1, prev_key, prev_price)
        | none => retractLoop deposit bounty fuel m1 led prev_key

/-- The `retract` (lib.rs lines 230-277). -/
def retract (s : State) (fuel : Nat) (bidder : AccountId) (auction_key : AKey) :
    State × Outcome :=
  match s.auctions auction_key with
  | none => (s, .err .AuctionKeyNotFound)
  | some auction =>
    match s.bids auction_key sentinel with
    | none => (s, .err .TopBidRequired)
    | some (top_key, top_price) =>
      if ¬ (bidder = top_key.1) then (s, .err .TopBidRequired)
      else if auction.in_dispute then (s, .err .AuctionDisputed)
      else
        let led0 := s.ledger.unreserve bidder auction.deposit
        match
          (if auction.is_assigned top_price s.now then
             led0.transfer bidder auction_key.1 auction.deposit
           else some led0) with
        | none => (s, .diverged)
        | some led =>
          match retractLoop auction.deposit auction.bounty fuel
              (s.bids auction_key) led top_key with
          | none => (s, .diverged)
          | some (m, led2, bid_key, price) =>
            let s2 : State :=
              { s with
                  ledger := led2,
                  bids := fun x => if x = auction_key then m else s.bids x }
            (s2, .ok (.Retracted auction_key bid_key price))

/-- The `confirm` (lib.rs lines 279-303). -/
def confirm (s : State) (owner : AccountId) (auction_key : AKey) : State × Outcome :=
  match s.auctions auction_key with
  | none => (s, .err .AuctionKeyNotFound)
  | some auction =>
    if ¬ (owner = auction_key.1) then (s, .err .OwnerRequired)
    else
      match s.bids auction_key sentinel with
      | some ((bidder, _), price) =>
        if ¬ (auction.is_assigned price s.now) then (s, .err .AuctionNotAssigned)
        else
          let led := (s.ledger.unreserve bidder auction.deposit).unreserve owner
            (auction.deposit + auction.bounty)
          match led.transfer owner bidder price with
          | none => (s, .diverged)
          | some led1 =>
            (removeAuction (clearBids { s with ledger := led1 } auction_key) auction_key,
             .ok (.Confirmed auction_key))
      | none => (s, .err .AuctionNotAssigned)

/-- The `cancel` (lib.rs lines 305-335). -/
def cancel (s : State) (owner : AccountId) (auction_key : AKey) : State × Outcome :=
  match s.auctions auction_key with
  | none => (s, .err .AuctionKeyNotFound)
  | some auction =>
    if ¬ (owner = auction_key.1) then (s, .err .OwnerRequired)
    else
      match s.bids auction_key sentinel with
      | some ((bidder, _), price) =>
        if auction.is_assigned price s.now then (s, .err .AuctionAssigned)
        else
          let led := (s.ledger.unreserve bidder auction.deposit).unreserve owner
            (auction.deposit + auction.bounty)
          match led.transfer owner bidder auction.deposit with
          | none => (s, .diverged)
          | some led1 =>
            (removeAuction (clearBids { s with ledger := led1 } auction_key) auction_key,
             .ok (.Cancelled auction_key))
      | none =>
        let led := s.ledger.unreserve owner (auction.deposit + auction.bounty)
        (removeAuction (clearBids { s with ledger := led } auction_key) auction_key,
         .ok (.Cancelled auction_key))

/-- The `dispute` (lib.rs lines 337-358). -/
def dispute (s : State) (origin : AccountId) (auction_key : AKey) : State × Outcome :=
  match s.auctions auction_key with
  | none => (s, .err .AuctionKeyNotFound)
  | some auction =>
    if auction.in_dispute then (s, .err .AuctionDisputed)
    else
      match s.bids auction_key sentinel with
      | some ((bidder, _), price) =>
        if ¬ (auction.is_assigned price s.now) then (s, .err .AuctionNotAssigned)
        else if ¬ (origin = bidder ∨ origin = auction_key.1) then
          (s, .err .OriginProhibited)
        else
          (insertAuction s auction_key { auction with in_dispute := true },
           .ok (.Disputed auction_key))
      | none => (s, .err .AuctionNotAssigned)

/-- The `arbitrate` (lib.rs lines 360-403).  Note that the not-in-dispute check
at line 371 fails with `Error::<T>::AuctionDisputed`, not
`AuctionNotDisputed`. -/
def arbitrate (s : State) (signer : AccountId) (auction_key : AKey) (fulfilled : Bool) :
    State × Outcome :=
  match s.auctions auction_key with
  | none => (s, .err .AuctionKeyNotFound)
  | some auction =>
    if ¬ (signer = auction.arbitrator) then (s, .err .OriginProhibited)
    else if ¬ auction.in_dispute then (s, .err .AuctionDisputed)
    else
      match s.bids auction_key sentinel with
      | none => (s, .diverged)
      | some ((bidder, _), price) =>
        let led := (s.ledger.unreserve auction_key.1
          (auction.deposit + auction.bounty)).unreserve bidder auction.deposit
        match (if fulfilled then led.transfer auction_key.1 bidder price else some led) with
        | none => (s, .diverged)
        | some led1 =>
          let loser := if fulfilled then auction_key.1 else bidder
          match led1.transfer loser signer auction.deposit with
          | none => (s, .diverged)
          | some led2 =>
            (removeAuction (clearBids { s with ledger := led2 } auction_key) auction_key,
             .ok (.Arbitrated auction_key fulfilled))

/-- One extrinsic of the pallet's call surface.  `retract` carries the fuel
for its descent loop (a modelling artifact only; the step relation
quantifies over it, and insufficient fuel yields `diverged`, which is
never a step). -/
inductive Cmd where
  | create (arbitrator : AccountId) (bounty deposit terminal_block : Nat) (data : List Nat)
  | extend (auction_key : AKey) (bounty terminal_block : Nat)
  | bid (auction_key : AKey) (price : Nat)
  | retract (fuel : Nat) (auction_key : AKey)
  | confirm (auction_key : AKey)
  | cancel (auction_key : AKey)
  | dispute (auction_key : AKey)
  | arbitrate (auction_key : AKey) (fulfilled : Bool)

/-- Dispatch one signed extrinsic: bump the signer's nonce (`CheckNonce`)
and run the call body. -/
def dispatch (cfg : Config) (signer : AccountId) (c : Cmd) (s : State) : State × Outcome :=
  let s1 : State := { s with nonce := updFn s.nonce signer (s.nonce signer + 1) }
  match c with
  | .create arb bounty deposit terminal data => create cfg s1 signer arb bounty deposit terminal data
  | .extend k bounty terminal => extend s1 signer k bounty terminal
  | .bid k price => bid cfg s1 signer k price
  | .retract fuel k => retract s1 fuel signer k
  | .confirm k => confirm s1 signer k
  | .cancel k => cancel s1 signer k
  | .dispute k => dispute s1 signer k
  | .arbitrate k fulfilled => arbitrate s1 signer k fulfilled

/-- One step of the chain: the clock may advance, then any signer submits
any extrinsic.  Results that return `Ok` or `Err` commit their state (the
runtime is pre-transactional); a panicking (`diverged`) call commits
nothing and so is not a step. -/
inductive Step (cfg : Config) : State → State → Prop where
  | mk (s : State) (signer : AccountId) (c : Cmd) (n' : Nat)
      (hnow : s.now ≤ n')
      (hout : (dispatch cfg signer c { s with now := n' }).2 ≠ .diverged) :
      Step cfg s (dispatch cfg signer c { s with now := n' }).1

/-- Genesis: empty auction registry and empty bid storage. -/
def InitState (s : State) : Prop :=
  s.auctions = (fun _ => none) ∧ s.bids = (fun _ _ => none)

/-- A state reachable from some genesis state through the pallet's calls. -/
def Reachable (cfg : Config) (s : State) : Prop :=
  ∃ s0, InitState s0 ∧ Relation.ReflTransGen (Step cfg) s0 s

/-- Modelled from the spec (§4.1): `base_price(now) = bounty` if
`now ≥ terminal_block`, else
`bounty · (now − initial_block) / (terminal_block − initial_block)` with
truncating integer division.  This is the claim's formula, to be compared
with the source's `Auction.get_base_price`. -/
def basePriceSpec (a : Auction) (now : Nat) : Nat :=
  if a.terminal_block ≤ now then a.bounty
  else a.bounty * (now - a.initial_block) / (a.terminal_block - a.initial_block)

/-- The base price never exceeds the bounty once `initial_block ≤ now`
(and trivially in the terminal branch). -/
theorem get_base_price_le_bounty (a : Auction) (t : Nat) :
    a.get_base_price t ≤ a.bounty := by
  unfold Auction.get_base_price
  by_cases h : t < a.terminal_block
  · rw [if_pos h]
    have hnum : satU32 (t - a.initial_block) ≤ satU32 (a.terminal_block - a.initial_block) :=
      min_le_min (Nat.sub_le_sub_right (le_of_lt h) _) (le_refl _)
    calc a.bounty * satU32 (t - a.initial_block) / satU32 (a.terminal_block - a.initial_block)
        ≤ a.bounty * satU32 (a.terminal_block - a.initial_block) /
            satU32 (a.terminal_block - a.initial_block) :=
          Nat.div_le_div_right (Nat.mul_le_mul (le_refl _) hnum)
      _ ≤ a.bounty := by
          rcases Nat.eq_zero_or_pos (satU32 (a.terminal_block - a.initial_block)) with h0 | h0
          · simp [h0]
          · rw [Nat.mul_div_cancel _ h0]
  · rw [if_neg h]

/-- Monotonicity: `get_base_price` is monotone non-decreasing in the current block
height. -/
theorem get_base_price_mono (a : Auction) {t t' : Nat} (h : t ≤ t') :
    a.get_base_price t ≤ a.get_base_price t' := by
  by_cases h2 : t' < a.terminal_block
  · have h1 : t < a.terminal_block := lt_of_le_of_lt h h2
    unfold Auction.get_base_price
    rw [if_pos h1, if_pos h2]
    exact Nat.div_le_div_right
      (Nat.mul_le_mul (le_refl _) (min_le_min (Nat.sub_le_sub_right h _) (le_refl _)))
  · have : a.get_base_price t' = a.bounty := by unfold Auction.get_base_price; rw [if_neg h2]
    rw [this]
    exact get_base_price_le_bounty a t

/-- C6: assignment is monotone in time.  For a fixed record, once
`is_assigned p` holds at block `t` it holds at every later block `t'`. -/
theorem C6_assigned_mono (a : Auction) (p t t' : Nat)
    (h : a.is_assigned p t) (ht : t < t') : a.is_assigned p t' :=
  le_trans h (get_base_price_mono a (le_of_lt ht))

/-- Witness for C6 at a concrete record: assigned at block 3, hence at
block 5. -/
theorem C6_assigned_mono_witness :
    (Auction.mk 11 1000 500 0 10 [] false).is_assigned 200 5 :=
  C6_assigned_mono (Auction.mk 11 1000 500 0 10 [] false) 200 3 5 (by decide) (by decide)

/-- Concrete record refuting the unconditional base-price formula: the span
`terminal_block - initial_block = 2^33` exceeds `u32::MAX`, so
`saturated_into::<u32>()` clamps both differences. -/
def wideAuction : Auction := ⟨99, 1000, 500, 0, 8589934592, [], false⟩

/-- C4 counterexample: at `now = 2^32` (half of the span), the source's
`get_base_price` returns the full bounty 1000 because both saturated
differences clamp to `u32::MAX`, while the claimed formula
`bounty·(now − initial_block)/(terminal_block − initial_block)` gives 500. -/
theorem C4_counterexample :
    wideAuction.get_base_price 4294967296 = 1000 ∧
    basePriceSpec wideAuction 4294967296 = 500 ∧
    wideAuction.get_base_price 4294967296 ≠ basePriceSpec wideAuction 4294967296 := by
  refine ⟨by decide, by decide, by decide⟩

/-- C4 (amended): the base-price formula as claimed holds whenever the
auction's span fits in `u32` (so the saturation is the identity) and
`initial_block ≤ now` (true of every reachable record); and `is_assigned`
is exactly the comparison with that base price. -/
theorem C4_base_price_formula (a : Auction) (now p : Nat)
    (hspan : a.terminal_block - a.initial_block ≤ U32MAX)
    (hinit : a.initial_block ≤ now) :
    a.get_base_price now = basePriceSpec a now ∧
    (a.is_assigned p now ↔ p ≤ basePriceSpec a now) := by
  have hmain : a.get_base_price now = basePriceSpec a now := by
    unfold Auction.get_base_price basePriceSpec
    by_cases h : now < a.terminal_block
    · rw [if_pos h, if_neg (by omega)]
      have h1 : satU32 (a.terminal_block - a.initial_block) =
          a.terminal_block - a.initial_block := min_eq_left hspan
      have h2 : satU32 (now - a.initial_block) = now - a.initial_block :=
        min_eq_left (le_trans (by omega) hspan)
      rw [h1, h2]
    · rw [if_neg h, if_pos (by omega)]
  refine ⟨hmain, ?_⟩
  unfold Auction.is_assigned
  rw [hmain]

/-- Witness for the amended C4 at a concrete in-range record. -/
theorem C4_base_price_formula_witness :
    (Auction.mk 11 1000 500 1 5 [] false).get_base_price 3 =
      basePriceSpec (Auction.mk 11 1000 500 1 5 [] false) 3 ∧
    ((Auction.mk 11 1000 500 1 5 [] false).is_assigned 400 3 ↔
      400 ≤ basePriceSpec (Auction.mk 11 1000 500 1 5 [] false) 3) :=
  C4_base_price_formula (Auction.mk 11 1000 500 1 5 [] false) 3 400
    (by decide) (by decide)

/-!  Abstract representation of one auction's bid stack.

The `Bids` double map stores, under each auction key, a sentinel-headed
singly-linked stack.  We represent its content by the list of
`(bidder, price)` pairs, **top first**; the source assigns the bid at
depth `i` from the bottom the key `(bidder, i)` (lib.rs line 222:
`(bidder, prev_key.1 + 1)`), so the key sequence numbers are determined
by the positions. -/

/-- The key of the top element of a (top-first) stack list; `sentinel`
for the empty stack. -/
def topKey : List (AccountId × Nat) → AKey
  | [] => sentinel
  | (a, _) :: rest => (a, rest.length + 1)

/-- The non-sentinel entries of the bid map denoted by a stack list: the
entry for the bid at the top of `(a, p) :: rest` points to the key of the
top of `rest` and stores its own price `p`. -/
def nodes : List (AccountId × Nat) → AKey → Option (AKey × Nat)
  | [], _ => none
  | (a, p) :: rest, k =>
      if k = (a, rest.length + 1) then some (topKey rest, p) else nodes rest k

/-- The sentinel head entry denoted by a stack list. -/
def headEntry : List (AccountId × Nat) → Option (AKey × Nat)
  | [] => none
  | (a, p) :: rest => some ((a, rest.length + 1), p)

/-- A bid map with an explicitly given head entry (used to describe the
transient states inside `retract`'s loop, where the head entry is stale). -/
def withHead (h : Option (AKey × Nat)) (l : List (AccountId × Nat)) :
    AKey → Option (AKey × Nat) :=
  fun k => if k = sentinel then h else nodes l k

/-- The bid map denoted by a stack list. -/
def stackMap (l : List (AccountId × Nat)) : AKey → Option (AKey × Nat) :=
  withHead (headEntry l) l

theorem topKey_seq (l : List (AccountId × Nat)) : (topKey l).2 = l.length := by
  cases l with
  | nil => rfl
  | cons x rest => cases x; rfl

theorem nodes_seq {l : List (AccountId × Nat)} {k : AKey} {v : AKey × Nat}
    (h : nodes l k = some v) : 1 ≤ k.2 ∧ k.2 ≤ l.length := by
  induction l with
  | nil => exact absurd h (by simp [nodes])
  | cons x rest ih =>
    rcases x with ⟨a, p⟩
    rw [nodes] at h
    by_cases hk : k = (a, rest.length + 1)
    · subst hk
      exact ⟨Nat.succ_le_succ (Nat.zero_le _), by simp⟩
    · rw [if_neg hk] at h
      have := ih h
      simp only [List.length_cons]
      omega

theorem nodes_mem {l : List (AccountId × Nat)} {k : AKey} {v : AKey × Nat}
    (h : nodes l k = some v) : ∃ e ∈ l, k.1 = e.1 ∧ v.2 = e.2 := by
  induction l with
  | nil => exact absurd h (by simp [nodes])
  | cons x rest ih =>
    rcases x with ⟨a, p⟩
    rw [nodes] at h
    by_cases hk : k = (a, rest.length + 1)
    · subst hk
      rw [if_pos rfl] at h
      injection h with h
      subst h
      exact ⟨(a, p), List.mem_cons_self _ _, rfl, rfl⟩
    · rw [if_neg hk] at h
      obtain ⟨e, he, h1, h2⟩ := ih h
      exact ⟨e, List.mem_cons_of_mem _ he, h1, h2⟩

theorem nodes_prev_seq {l : List (AccountId × Nat)} {k pk : AKey} {p : Nat}
    (h : nodes l k = some (pk, p)) : pk.2 + 1 = k.2 := by
  induction l with
  | nil => exact absurd h (by simp [nodes])
  | cons x rest ih =>
    rcases x with ⟨a, q⟩
    rw [nodes] at h
    by_cases hk : k = (a, rest.length + 1)
    · subst hk
      rw [if_pos rfl] at h
      injection h with h
      have h1 : topKey rest = pk := congrArg Prod.fst h
      rw [← h1, topKey_seq]
    · rw [if_neg hk] at h
      exact ih h

theorem stackMap_nil : stackMap [] = fun _ => none := by
  funext k
  by_cases h : k = sentinel <;> simp [stackMap, withHead, headEntry, nodes, h]

theorem stackMap_sentinel (l : List (AccountId × Nat)) :
    stackMap l sentinel = headEntry l := by
  simp [stackMap, withHead]

theorem stackMap_head_some {l : List (AccountId × Nat)} {pk : AKey} {pp : Nat}
    (h : stackMap l sentinel = some (pk, pp)) :
    ∃ hd rest, l = hd :: rest ∧ pk = (hd.1, rest.length + 1) ∧ pp = hd.2 := by
  rw [stackMap_sentinel] at h
  cases l with
  | nil => exact absurd h (by simp [headEntry])
  | cons hd rest =>
    rcases hd with ⟨a, p⟩
    rw [headEntry] at h
    injection h with h
    exact ⟨(a, p), rest, rfl, (congrArg Prod.fst h).symm, (congrArg Prod.snd h).symm⟩

theorem stackMap_head_none {l : List (AccountId × Nat)}
    (h : stackMap l sentinel = none) : l = [] := by
  rw [stackMap_sentinel] at h
  cases l with
  | nil => rfl
  | cons hd rest => rcases hd with ⟨a, p⟩; rw [headEntry] at h; exact absurd h (by simp)

theorem stackMap_ne_sentinel {l : List (AccountId × Nat)} {k : AKey}
    (h : k ≠ sentinel) : stackMap l k = nodes l k := by
  simp [stackMap, withHead, h]

/-- Pushing a bid: the two `Bids::insert`s of `bid` rewrite the map
denoted by `l` into the map denoted by `(b, price) :: l`.  The new bid key
is `(b, (topKey l).2 + 1)` exactly as computed by the source from the
previous head key (`sentinel` when the stack is empty). -/
theorem insBid_push (l : List (AccountId × Nat)) (b price : Nat) :
    insBid (insBid (stackMap l) (b, (topKey l).2 + 1) (topKey l, price)) sentinel
      ((b, (topKey l).2 + 1), price) = stackMap ((b, price) :: l) := by
  funext k
  have hbk : ((b, (topKey l).2 + 1) : AKey) = (b, l.length + 1) := by rw [topKey_seq]
  rw [hbk]
  have hbs : ((b, l.length + 1) : AKey) ≠ sentinel := by
    intro h
    exact absurd (congrArg Prod.snd h) (by simp [sentinel])
  by_cases hs : k = sentinel
  · subst hs
    simp [insBid, stackMap, withHead, headEntry, hbs, Ne.symm hbs]
  · by_cases hk : k = (b, l.length + 1)
    · subst hk
      simp [insBid, stackMap, withHead, nodes, hbs]
    · simp [insBid, stackMap, withHead, nodes, hs, hk]

/-- The strict price ordering along the stack, read top first: each bid is
strictly cheaper than the one below it. -/
abbrev PricesAscend (l : List (AccountId × Nat)) : Prop :=
  List.Chain' (fun x y : AccountId × Nat => x.2 < y.2) l

/-- Following one `prev` link of a well-ordered stack strictly increases
the stored price: the entry at `bk` is strictly cheaper than its
predecessor entry at `pk`. -/
theorem nodes_link_lt {l : List (AccountId × Nat)}
    (hch : PricesAscend l) {bk pk : AKey} {p : Nat} {w : AKey × Nat}
    (h1 : nodes l bk = some (pk, p)) (hpk : pk ≠ sentinel)
    (h2 : nodes l pk = some w) : p < w.2 := by
  induction l with
  | nil => exact absurd h1 (by simp [nodes])
  | cons x rest ih =>
    rcases x with ⟨a, q⟩
    rw [nodes] at h1
    by_cases hk : bk = (a, rest.length + 1)
    · rw [if_pos hk] at h1
      injection h1 with h1
      have hpk2 : topKey rest = pk := congrArg Prod.fst h1
      have hp : q = p := congrArg Prod.snd h1
      cases rest with
      | nil => exact absurd hpk2.symm hpk
      | cons y r2 =>
        rcases y with ⟨a2, q2⟩
        have hpk3 : pk = (a2, r2.length + 1) := by rw [← hpk2]; rfl
        rw [nodes] at h2
        have hne : pk ≠ (a, ((a2, q2) :: r2).length + 1) := by
          rw [hpk3]
          intro hcontra
          have h5 := congrArg Prod.snd hcontra
          simp only [List.length_cons] at h5
          omega
        rw [if_neg hne, nodes, if_pos hpk3] at h2
        injection h2 with h2
        subst h2
        rw [← hp]
        exact (List.chain'_cons.mp hch).1
    · rw [if_neg hk] at h1
      have hseq := nodes_seq h1
      have hprev := nodes_prev_seq h1
      have hne : pk ≠ (a, rest.length + 1) := by
        intro h
        have h5 := congrArg Prod.snd h
        omega
      rw [nodes, if_neg hne] at h2
      exact ih (List.Chain'.tail hch) h1 h2

/-!  Refinement of `retract`'s descent loop.

`descend` is the list-level rendering of the walk described by the spec
(§4.4 retract, step 3): starting from the predecessors below the popped
top, skip (and drop) every bidder whose deposit reserve fails, and stop at
the first whose reserve succeeds (which becomes the new top) or at the
sentinel (stack cleared, price reported as the bounty). -/
def descend (deposit bounty : Nat) (led : Ledger) :
    List (AccountId × Nat) → Ledger × List (AccountId × Nat) × AKey × Nat
  | [] => (led, [], sentinel, bounty)
  | (a, p) :: rest =>
    match led.reserve a deposit with
    | some led1 => (led1, (a, p) :: rest, (a, rest.length + 1), p)
    | none => descend deposit bounty led rest

/-- The loop result denoted by a `descend` run: the bid map of the
remaining stack, the ledger, and the event's `(bid_key, price)`. -/
def descendRes (deposit bounty : Nat) (led : Ledger) (r : List (AccountId × Nat)) :
    (AKey → Option (AKey × Nat)) × Ledger × AKey × Nat :=
  (stackMap (descend deposit bounty led r).2.1,
   (descend deposit bounty led r).1,
   (descend deposit bounty led r).2.2.1,
   (descend deposit bounty led r).2.2.2)

/-- A key with a positive sequence number is never the sentinel. -/
theorem seq_ne_sentinel {a : AccountId} {n : Nat} : ((a, n + 1) : AKey) ≠ sentinel := by
  intro h
  have h2 := congrArg Prod.snd h
  simp [sentinel] at h2

theorem sentinel_ne_seq {a : AccountId} {n : Nat} : sentinel ≠ ((a, n + 1) : AKey) :=
  fun h => seq_ne_sentinel h.symm

theorem topKey_ne_sentinel {x : AccountId × Nat} {r : List (AccountId × Nat)} :
    topKey (x :: r) ≠ sentinel := by
  rcases x with ⟨a, p⟩
  exact seq_ne_sentinel

theorem nodes_high {r : List (AccountId × Nat)} {k : AKey} (h : r.length < k.2) :
    nodes r k = none := by
  cases hn : nodes r k with
  | none => rfl
  | some v => have := nodes_seq hn; omega

theorem withHead_at (stale : Option (AKey × Nat)) (a p : Nat)
    (r : List (AccountId × Nat)) :
    withHead stale ((a, p) :: r) (a, r.length + 1) = some (topKey r, p) := by
  simp [withHead, nodes, seq_ne_sentinel]

theorem withHead_top (stale : Option (AKey × Nat)) (x : AccountId × Nat)
    (r : List (AccountId × Nat)) :
    withHead stale (x :: r) (topKey (x :: r)) = some (topKey r, x.2) := by
  rcases x with ⟨a, p⟩
  show withHead stale ((a, p) :: r) (a, r.length + 1) = some (topKey r, p)
  exact withHead_at stale a p r

theorem remBid_withHead (stale : Option (AKey × Nat)) (x : AccountId × Nat)
    (r : List (AccountId × Nat)) :
    remBid (withHead stale (x :: r)) (topKey (x :: r)) = withHead stale r := by
  rcases x with ⟨a, p⟩
  show remBid (withHead stale ((a, p) :: r)) (a, r.length + 1) = withHead stale r
  funext k
  by_cases hk : k = (a, r.length + 1)
  · subst hk
    have h1 : nodes r (a, r.length + 1) = none := nodes_high (Nat.lt_succ_self _)
    simp [remBid, withHead, seq_ne_sentinel, h1]
  · by_cases hs : k = sentinel
    · subst hs
      simp [remBid, withHead, sentinel_ne_seq]
    · simp [remBid, withHead, nodes, hk, hs]

theorem insBid_withHead (stale : Option (AKey × Nat)) (l : List (AccountId × Nat))
    (v : AKey × Nat) :
    insBid (withHead stale l) sentinel v = withHead (some v) l := by
  funext k
  by_cases hk : k = sentinel <;> simp [insBid, withHead, hk]

theorem stackMap_cons (x : AccountId × Nat) (r : List (AccountId × Nat)) :
    stackMap (x :: r) = withHead (some ((x.1, r.length + 1), x.2)) (x :: r) := by
  rcases x with ⟨a, p⟩
  rfl

/-- One iteration of `retractLoop`, for a working map whose entry at the
current top key is known. -/
theorem retractLoop_step (deposit bounty : Nat) (m : AKey → Option (AKey × Nat))
    (led : Ledger) (f : Nat) (tk pk : AKey) (tp : Nat) (hm : m tk = some (pk, tp)) :
    retractLoop deposit bounty (f + 1) m led tk =
      (if pk = sentinel then
         some ((fun _ => none : AKey → Option (AKey × Nat)), led, pk, bounty)
       else
         match led.reserve pk.1 deposit with
         | some led1 =>
           match remBid m tk pk with
           | none => none
           | some (_, prev_price) =>
             some (insBid (remBid m tk) sentinel (pk, prev_price), led1, pk, prev_price)
         | none => retractLoop deposit bounty f (remBid m tk) led pk) := by
  rw [retractLoop, hm]

/-- The descent loop computes exactly the `descend` result: with fuel at
least the stack depth it terminates with it, and whenever it terminates at
all the result is that one. -/
theorem retractLoop_descend (deposit bounty : Nat) :
    ∀ (r : List (AccountId × Nat)) (x : AccountId × Nat) (stale : Option (AKey × Nat))
      (led : Ledger),
      (∀ fuel, r.length + 1 ≤ fuel →
        retractLoop deposit bounty fuel (withHead stale (x :: r)) led (topKey (x :: r)) =
          some (descendRes deposit bounty led r)) ∧
      (∀ fuel res,
        retractLoop deposit bounty fuel (withHead stale (x :: r)) led (topKey (x :: r)) =
          some res →
        res = descendRes deposit bounty led r) := by
  intro r
  induction r with
  | nil =>
    intro x stale led
    constructor
    · intro fuel hfuel
      obtain ⟨f, rfl⟩ : ∃ f, fuel = f + 1 := ⟨fuel - 1, by omega⟩
      rw [retractLoop_step deposit bounty _ led f _ _ _ (withHead_top stale x [])]
      rw [if_pos (show topKey ([] : List (AccountId × Nat)) = sentinel from rfl)]
      rw [descendRes, descend, stackMap_nil]
      rfl
    · intro fuel res hres
      cases fuel with
      | zero => rw [retractLoop] at hres; exact absurd hres (by simp)
      | succ f =>
        rw [retractLoop_step deposit bounty _ led f _ _ _ (withHead_top stale x []),
          if_pos (show topKey ([] : List (AccountId × Nat)) = sentinel from rfl)] at hres
        injection hres with hres
        rw [← hres, descendRes, descend, stackMap_nil]
        rfl
  | cons y r2 ih =>
    rcases y with ⟨a2, p2⟩
    intro x stale led
    constructor
    · intro fuel hfuel
      obtain ⟨f, rfl⟩ : ∃ f, fuel = f + 1 := ⟨fuel - 1, by omega⟩
      rw [retractLoop_step deposit bounty _ led f _ _ _
        (withHead_top stale x ((a2, p2) :: r2))]
      rw [if_neg topKey_ne_sentinel]
      rw [show (topKey ((a2, p2) :: r2)).1 = a2 from rfl]
      rw [descendRes, descend]
      cases hres : led.reserve a2 deposit with
      | some led1 =>
        rw [remBid_withHead, withHead_top]
        simp only [insBid_withHead, stackMap_cons, topKey]
      | none =>
        rw [remBid_withHead]
        have hrec := (ih (a2, p2) stale led).1 f
          (by simp only [List.length_cons] at hfuel; omega)
        rw [hrec, descendRes]
    · intro fuel res hres
      cases fuel with
      | zero => rw [retractLoop] at hres; exact absurd hres (by simp)
      | succ f =>
        rw [retractLoop_step deposit bounty _ led f _ _ _
          (withHead_top stale x ((a2, p2) :: r2))] at hres
        rw [if_neg topKey_ne_sentinel] at hres
        rw [show (topKey ((a2, p2) :: r2)).1 = a2 from rfl] at hres
        rw [descendRes, descend]
        cases hres2 : led.reserve a2 deposit with
        | some led1 =>
          rw [hres2, remBid_withHead, withHead_top] at hres
          simp only [insBid_withHead] at hres
          injection hres with hres
          rw [← hres]
          simp only [insBid_withHead, stackMap_cons, topKey]
        | none =>
          rw [hres2, remBid_withHead] at hres
          have h3 := (ih (a2, p2) stale led).2 f res hres
          rw [h3, descendRes]

/-- If the descent reports the sentinel as the new key, the stack is empty
and the reported price is the bounty. -/
theorem descend_sentinel (deposit bounty : Nat) (led : Ledger) :
    ∀ r : List (AccountId × Nat),
      (descend deposit bounty led r).2.2.1 = sentinel →
      (descend deposit bounty led r).2.1 = [] ∧
      (descend deposit bounty led r).2.2.2 = bounty := by
  intro r
  induction r with
  | nil => intro _; exact ⟨rfl, rfl⟩
  | cons y r2 ih =>
    rcases y with ⟨a2, p2⟩
    rw [descend]
    cases hres : led.reserve a2 deposit with
    | some led1 =>
      intro h
      exact absurd h seq_ne_sentinel
    | none => exact ih

/-- The descent returns a suffix of its input, hence preserves the price
chain and any per-entry property. -/
theorem descend_sublist (deposit bounty : Nat) (led : Ledger)
    (P : AccountId × Nat → Prop) :
    ∀ r : List (AccountId × Nat), PricesAscend r → (∀ e ∈ r, P e) →
      PricesAscend (descend deposit bounty led r).2.1 ∧
      (∀ e ∈ (descend deposit bounty led r).2.1, P e) := by
  intro r
  induction r with
  | nil => intro h1 h2; exact ⟨h1, h2⟩
  | cons y r2 ih =>
    rcases y with ⟨a2, p2⟩
    intro h1 h2
    rw [descend]
    cases hres : led.reserve a2 deposit with
    | some led1 => exact ⟨h1, h2⟩
    | none =>
      exact ih (List.Chain'.tail h1) (fun e he => h2 e (List.mem_cons_of_mem _ he))

/-- C3: the retract descent.  A successful `retract` by the top bidder of
a live, non-disputed auction (whose bid stack is represented by the list
`(b, q) :: rest`, top first) unreserves the bidder's deposit, transfers the
same deposit to the owner exactly when the auction was assigned at the top
price (hypothesis `htr` names the resulting ledger `led2` and rules out the
`.unwrap()` panic), pops the top and walks the chain by `descend`:
predecessors whose deposit reserve fails are removed, the first success is
installed as the new head with its stored price, and the event carries the
new top's key and price; if the sentinel is reached the stack is cleared
and the event price is the bounty. -/
theorem C3_retract_descent (s : State) (fuel : Nat) (bidder : AccountId)
    (ak : AKey) (a : Auction) (b q : Nat) (rest : List (AccountId × Nat))
    (led2 : Ledger)
    (ha : s.auctions ak = some a)
    (hrep : s.bids ak = stackMap ((b, q) :: rest))
    (hb : bidder = b)
    (hd : a.in_dispute = false)
    (hfuel : rest.length + 1 ≤ fuel)
    (htr : (if a.is_assigned q s.now then
              (s.ledger.unreserve b a.deposit).transfer b ak.1 a.deposit
            else some (s.ledger.unreserve b a.deposit)) = some led2) :
    retract s fuel bidder ak =
      ({ s with
           ledger := (descend a.deposit a.bounty led2 rest).1,
           bids := fun k =>
             if k = ak then stackMap (descend a.deposit a.bounty led2 rest).2.1
             else s.bids k },
       .ok (.Retracted ak (descend a.deposit a.bounty led2 rest).2.2.1
             (descend a.deposit a.bounty led2 rest).2.2.2)) ∧
    ((descend a.deposit a.bounty led2 rest).2.2.1 = sentinel →
      (descend a.deposit a.bounty led2 rest).2.1 = [] ∧
      (descend a.deposit a.bounty led2 rest).2.2.2 = a.bounty) := by
  subst hb
  refine ⟨?_, descend_sentinel _ _ _ _⟩
  have hloop :
      retractLoop a.deposit a.bounty fuel (stackMap ((bidder, q) :: rest)) led2
        (bidder, rest.length + 1) =
      some (descendRes a.deposit a.bounty led2 rest) :=
    (retractLoop_descend a.deposit a.bounty rest (bidder, q)
      (headEntry ((bidder, q) :: rest)) led2).1 fuel hfuel
  simp only [retract, ha, hrep, stackMap_sentinel, headEntry, hd]
  simp only [eq_self_iff_true, not_true, if_false, Bool.false_eq_true]
  rw [htr]
  simp only [hloop, descendRes]

/-- A reference configuration: the mock runtime's constants with
`MinBidRatio = 255` (strict decrease). -/
def cfg0 : Config := ⟨500, 100, 255, 16⟩

/-- A concrete auction used by several witnesses: arbitrator 11, bounty
1000, deposit 500, created at block 1, terminal block 5. -/
def aW : Auction := ⟨11, 1000, 500, 1, 5, [], false⟩

def akW : AKey := (10, 1)

/-- Concrete state with auction `akW` live and a two-bid stack: bidder 12
at 900 below the top bidder 13 at 800; 13's deposit is reserved. -/
def sW : State :=
  { auctions := fun k => if k = akW then some aW else none,
    bids := fun k => if k = akW then stackMap [(13, 800), (12, 900)] else fun _ => none,
    ledger := ⟨fun _ => 10000, fun x => if x = 13 then 500 else 0⟩,
    nonce := fun _ => 2,
    now := 1 }

/-- Witness for C3: in `sW` the top bidder 13 retracts (unassigned, so no
penalty); the predecessor 12 can reserve the deposit and becomes the new
top at its stored price 900. -/
theorem C3_retract_descent_witness :
    (retract sW 2 13 akW).2 = .ok (.Retracted akW (12, 1) 900) := by
  rw [(C3_retract_descent sW 2 13 akW aW 13 800 [(12, 900)]
        (sW.ledger.unreserve 13 aW.deposit) rfl rfl rfl rfl (by decide)
        (by rw [if_neg (show ¬ aW.is_assigned 800 sW.now by decide)])).1]
  decide

/-!  The inductive invariant of reachable states. -/

/-- The inductive invariant: every auction's bid storage is a well-formed
sentinel-headed stack whose prices strictly descend as bids are pushed
(read top first, prices ascend downwards), bids exist only under live
auctions, no bidder in a stack equals its auction's arbitrator, live
auction keys never exceed the owner's current nonce (freshness), records
were created no later than the clock, and a disputed record keeps a head
bid. -/
structure Inv (s : State) : Prop where
  stack : ∀ k, ∃ l, s.bids k = stackMap l ∧ PricesAscend l ∧
    (s.auctions k = none → l = []) ∧
    (∀ a, s.auctions k = some a → ∀ e ∈ l, e.1 ≠ a.arbitrator)
  fresh : ∀ o n, s.auctions (o, n) ≠ none → n ≤ s.nonce o
  time : ∀ k a, s.auctions k = some a → a.initial_block ≤ s.now
  disputedBid : ∀ k a, s.auctions k = some a → a.in_dispute = true →
    s.bids k sentinel ≠ none

/-- The invariant only mentions auctions, bids, nonces and the clock; it
survives any ledger change, nonce growth and clock advance. -/
theorem inv_of_core (s s' : State)
    (hb : s'.bids = s.bids) (ha : s'.auctions = s.auctions)
    (hnon : ∀ o, s.nonce o ≤ s'.nonce o) (hnow : s.now ≤ s'.now)
    (h : Inv s) : Inv s' := by
  constructor
  · intro k; rw [hb, ha]; exact h.stack k
  · intro o n; rw [ha]; intro hx; exact le_trans (h.fresh o n hx) (hnon o)
  · intro k a; rw [ha]; intro hx; exact le_trans (h.time k a hx) hnow
  · intro k a; rw [ha, hb]; exact h.disputedBid k a

theorem inv_ledger {s : State} (led : Ledger) (h : Inv s) :
    Inv { s with ledger := led } :=
  inv_of_core s { s with ledger := led } rfl rfl (fun _ => le_refl _) (le_refl _) h

/-- Inserting a brand-new record at a fresh key (used by `create`). -/
theorem inv_insert_new (s : State) (led : Ledger) (k : AKey) (a : Auction)
    (h : Inv s) (hk : s.auctions k = none) (hn : k.2 ≤ s.nonce k.1)
    (hinit : a.initial_block ≤ s.now) (hdisp : a.in_dispute = false) :
    Inv (insertAuction { s with ledger := led } k a) := by
  constructor
  · intro k2
    obtain ⟨l, hrep, hasc, hnil, harb⟩ := h.stack k2
    by_cases hk2 : k2 = k
    · subst hk2
      have hle : l = [] := hnil hk
      refine ⟨l, hrep, hasc, fun _ => hle, ?_⟩
      intro a2 _ e he
      rw [hle] at he
      exact absurd he (List.not_mem_nil e)
    · refine ⟨l, hrep, hasc, ?_, ?_⟩
      · intro hx
        apply hnil
        simpa [insertAuction, hk2] using hx
      · intro a2 ha2
        apply harb
        simpa [insertAuction, hk2] using ha2
  · intro o n hx
    by_cases hk2 : ((o, n) : AKey) = k
    · have h1 : n = k.2 := congrArg Prod.snd hk2
      have h2 : o = k.1 := congrArg Prod.fst hk2
      rw [h1, h2]
      exact hn
    · apply h.fresh o n
      simpa [insertAuction, hk2] using hx
  · intro k2 a2 hx
    by_cases hk2 : k2 = k
    · subst hk2
      rw [show (insertAuction { s with ledger := led } k2 a).auctions k2 = some a by
        simp [insertAuction]] at hx
      injection hx with hx
      rw [← hx]
      exact hinit
    · apply h.time k2 a2
      simpa [insertAuction, hk2] using hx
  · intro k2 a2 hx hdisp2
    by_cases hk2 : k2 = k
    · subst hk2
      rw [show (insertAuction { s with ledger := led } k2 a).auctions k2 = some a by
        simp [insertAuction]] at hx
      injection hx with hx
      rw [← hx] at hdisp2
      rw [hdisp] at hdisp2
      exact absurd hdisp2 (by simp)
    · have hx2 : s.auctions k2 = some a2 := by simpa [insertAuction, hk2] using hx
      exact h.disputedBid k2 a2 hx2 hdisp2

/-- Overwriting an existing record in place with unchanged arbitrator and
initial block (used by `extend` and `dispute`). -/
theorem inv_insert_update (s : State) (led : Ledger) (k : AKey) (a0 a : Auction)
    (h : Inv s) (ha0 : s.auctions k = some a0)
    (harb0 : a.arbitrator = a0.arbitrator)
    (hinit0 : a.initial_block = a0.initial_block)
    (hdisp0 : a.in_dispute = true → s.bids k sentinel ≠ none) :
    Inv (insertAuction { s with ledger := led } k a) := by
  constructor
  · intro k2
    obtain ⟨l, hrep, hasc, hnil, harb⟩ := h.stack k2
    refine ⟨l, hrep, hasc, ?_, ?_⟩
    · intro hx
      apply hnil
      by_cases hk2 : k2 = k
      · subst hk2; simp [insertAuction] at hx
      · simpa [insertAuction, hk2] using hx
    · intro a2 ha2
      by_cases hk2 : k2 = k
      · subst hk2
        rw [show (insertAuction { s with ledger := led } k2 a).auctions k2 = some a by
          simp [insertAuction]] at ha2
        injection ha2 with ha2
        rw [← ha2, harb0]
        exact harb a0 ha0
      · apply harb
        simpa [insertAuction, hk2] using ha2
  · intro o n hx
    by_cases hk2 : ((o, n) : AKey) = k
    · apply h.fresh o n
      rw [hk2, ha0]
      simp
    · apply h.fresh o n
      simpa [insertAuction, hk2] using hx
  · intro k2 a2 hx
    by_cases hk2 : k2 = k
    · subst hk2
      rw [show (insertAuction { s with ledger := led } k2 a).auctions k2 = some a by
        simp [insertAuction]] at hx
      injection hx with hx
      rw [← hx, hinit0]
      exact h.time k2 a0 ha0
    · apply h.time k2 a2
      simpa [insertAuction, hk2] using hx
  · intro k2 a2 hx hdisp2
    by_cases hk2 : k2 = k
    · subst hk2
      rw [show (insertAuction { s with ledger := led } k2 a).auctions k2 = some a by
        simp [insertAuction]] at hx
      injection hx with hx
      apply hdisp0
      rw [← hx] at hdisp2
      exact hdisp2
    · have hx2 : s.auctions k2 = some a2 := by simpa [insertAuction, hk2] using hx
      exact h.disputedBid k2 a2 hx2 hdisp2

/-- Deleting a record and clearing its bids (used by `confirm`, `cancel`
and `arbitrate`). -/
theorem inv_remove (s : State) (led : Ledger) (k : AKey) (h : Inv s) :
    Inv (removeAuction (clearBids { s with ledger := led } k) k) := by
  constructor
  · intro k2
    by_cases hk2 : k2 = k
    · subst hk2
      refine ⟨[], ?_, List.chain'_nil, fun _ => rfl, ?_⟩
      · rw [show (removeAuction (clearBids { s with ledger := led } k2) k2).bids k2 =
            (fun _ => none) by simp [removeAuction, clearBids]]
        exact stackMap_nil.symm
      · intro a2 ha2
        rw [show (removeAuction (clearBids { s with ledger := led } k2) k2).auctions k2 =
            none by simp [removeAuction]] at ha2
        exact absurd ha2 (by simp)
    · obtain ⟨l, hrep, hasc, hnil, harb⟩ := h.stack k2
      refine ⟨l, ?_, hasc, ?_, ?_⟩
      · rw [show (removeAuction (clearBids { s with ledger := led } k) k).bids k2 =
            s.bids k2 by simp [removeAuction, clearBids, hk2]]
        exact hrep
      · intro hx
        apply hnil
        simpa [removeAuction, clearBids, hk2] using hx
      · intro a2 ha2
        apply harb
        simpa [removeAuction, clearBids, hk2] using ha2
  · intro o n hx
    by_cases hk2 : ((o, n) : AKey) = k
    · rw [show (removeAuction (clearBids { s with ledger := led } k) k).auctions (o, n) =
          none by simp [removeAuction, hk2]] at hx
      exact absurd rfl hx
    · apply h.fresh o n
      simpa [removeAuction, clearBids, hk2] using hx
  · intro k2 a2 hx
    by_cases hk2 : k2 = k
    · rw [show (removeAuction (clearBids { s with ledger := led } k) k).auctions k2 =
          none by simp [removeAuction, hk2]] at hx
      exact absurd hx (by simp)
    · apply h.time k2 a2
      simpa [removeAuction, clearBids, hk2] using hx
  · intro k2 a2 hx hdisp2
    by_cases hk2 : k2 = k
    · rw [show (removeAuction (clearBids { s with ledger := led } k) k).auctions k2 =
          none by simp [removeAuction, hk2]] at hx
      exact absurd hx (by simp)
    · have hx2 : s.auctions k2 = some a2 := by
        simpa [removeAuction, clearBids, hk2] using hx
      have h3 := h.disputedBid k2 a2 hx2 hdisp2
      rw [show (removeAuction (clearBids { s with ledger := led } k) k).bids k2 =
          s.bids k2 by simp [removeAuction, clearBids, hk2]]
      exact h3

/-- Command `create` preserves the invariant, given that the key derived from the
owner's current nonce is fresh. -/
theorem inv_create (cfg : Config) (s : State) (owner arbitrator : AccountId)
    (bounty deposit terminal_block : Nat) (data : List Nat)
    (h : Inv s) (hfresh : s.auctions (owner, s.nonce owner) = none) :
    Inv (create cfg s owner arbitrator bounty deposit terminal_block data).1 := by
  simp only [create]
  split
  · exact h
  split
  · exact h
  split
  · exact h
  cases hres : s.ledger.reserve owner (bounty + deposit) with
  | none => exact h
  | some led =>
    exact inv_insert_new s led (owner, s.nonce owner)
      ⟨arbitrator, bounty, deposit, s.now, terminal_block, data, false⟩
      h hfresh (le_refl _) (le_refl _) rfl

/-- The reserve-and-overwrite tail of `extend` preserves the invariant. -/
theorem inv_extendFinish (s : State) (owner : AccountId) (ak : AKey) (auction : Auction)
    (bounty terminal_block : Nat) (h : Inv s) (ha : s.auctions ak = some auction)
    (hdispN : auction.in_dispute = true → s.bids ak sentinel ≠ none) :
    Inv (extendFinish s owner ak auction bounty terminal_block).1 := by
  simp only [extendFinish]
  split
  · exact h
  cases hres : s.ledger.reserve owner (bounty - auction.bounty) with
  | none => exact h
  | some led =>
    exact inv_insert_update s led ak auction
      { auction with bounty := bounty, terminal_block := terminal_block }
      h ha rfl rfl hdispN

/-- Command `extend` preserves the invariant. -/
theorem inv_extend (s : State) (owner : AccountId) (ak : AKey)
    (bounty terminal_block : Nat) (h : Inv s) :
    Inv (extend s owner ak bounty terminal_block).1 := by
  cases ha : s.auctions ak with
  | none => simp only [extend, ha]; exact h
  | some auction =>
    have hdispN : auction.in_dispute = true → s.bids ak sentinel ≠ none :=
      h.disputedBid ak auction ha
    cases hhead : s.bids ak sentinel with
    | none =>
      simp only [extend, ha, hhead]
      split
      · exact h
      · exact inv_extendFinish s owner ak auction bounty terminal_block h ha hdispN
    | some pv =>
      rcases pv with ⟨tk, price⟩
      simp only [extend, ha, hhead]
      split
      · exact h
      split
      · exact h
      · exact inv_extendFinish s owner ak auction bounty terminal_block h ha hdispN

/-- The reserve-and-push tail of `bid` preserves the invariant. -/
theorem inv_bidFinish (s : State) (bidder : AccountId) (ak : AKey) (auction : Auction)
    (l : List (AccountId × Nat)) (price : Nat)
    (h : Inv s)
    (ha : s.auctions ak = some auction)
    (hrep : s.bids ak = stackMap l)
    (hasc : PricesAscend ((bidder, price) :: l))
    (hbarb : bidder ≠ auction.arbitrator)
    (harbl : ∀ e ∈ l, e.1 ≠ auction.arbitrator) :
    Inv (bidFinish s bidder ak auction (topKey l) price).1 := by
  simp only [bidFinish]
  cases hres : s.ledger.reserve bidder auction.deposit with
  | none => exact h
  | some led =>
    have hbids : (insertBid (insertBid { s with ledger := led } ak
        (bidder, (topKey l).2 + 1) (topKey l, price)) ak sentinel
        ((bidder, (topKey l).2 + 1), price)).bids ak
        = stackMap ((bidder, price) :: l) := by
      rw [show (insertBid (insertBid { s with ledger := led } ak
          (bidder, (topKey l).2 + 1) (topKey l, price)) ak sentinel
          ((bidder, (topKey l).2 + 1), price)).bids ak
          = insBid (insBid (s.bids ak) (bidder, (topKey l).2 + 1) (topKey l, price))
              sentinel ((bidder, (topKey l).2 + 1), price) by
        simp [insertBid]]
      rw [hrep]
      exact insBid_push l bidder price
    constructor
    · intro k2
      by_cases hk2 : k2 = ak
      · subst hk2
        refine ⟨(bidder, price) :: l, hbids, hasc, ?_, ?_⟩
        · intro hx
          exact absurd (show s.auctions k2 = none from hx) (by rw [ha]; simp)
        · intro a2 ha2 e he
          have ha2s : s.auctions k2 = some a2 := ha2
          rw [ha] at ha2s
          injection ha2s with ha2s
          rcases List.mem_cons.mp he with he1 | he2
          · rw [he1, ← ha2s]
            exact hbarb
          · rw [← ha2s]
            exact harbl e he2
      · obtain ⟨l2, hrep2, hasc2, hnil2, harb2⟩ := h.stack k2
        refine ⟨l2, ?_, hasc2, ?_, ?_⟩
        · rw [show (insertBid (insertBid { s with ledger := led } ak
            (bidder, (topKey l).2 + 1) (topKey l, price)) ak sentinel
            ((bidder, (topKey l).2 + 1), price)).bids k2 = s.bids k2 by
              simp [insertBid, hk2]]
          exact hrep2
        · intro hx
          exact hnil2 hx
        · intro a2 ha2
          exact harb2 a2 ha2
    · intro o n hx
      exact h.fresh o n hx
    · intro k2 a2 hx
      exact h.time k2 a2 hx
    · intro k2 a2 hx hd2
      by_cases hk2 : k2 = ak
      · subst hk2
        rw [show (insertBid (insertBid { s with ledger := led } k2
            (bidder, (topKey l).2 + 1) (topKey l, price)) k2 sentinel
            ((bidder, (topKey l).2 + 1), price)).bids k2 sentinel
            = some ((bidder, (topKey l).2 + 1), price) by
          simp [insertBid, insBid]]
        simp
      · rw [show (insertBid (insertBid { s with ledger := led } ak
            (bidder, (topKey l).2 + 1) (topKey l, price)) ak sentinel
            ((bidder, (topKey l).2 + 1), price)).bids k2 = s.bids k2 by
              simp [insertBid, hk2]]
        exact h.disputedBid k2 a2 hx hd2

/-- Command `bid` preserves the invariant. -/
theorem inv_bid (cfg : Config) (s : State) (bidder : AccountId) (ak : AKey)
    (price : Nat) (h : Inv s) : Inv (bid cfg s bidder ak price).1 := by
  cases ha : s.auctions ak with
  | none => simp only [bid, ha]; exact h
  | some auction =>
    obtain ⟨l, hrep, hasc, hnil, harbl⟩ := h.stack ak
    cases hhead : s.bids ak sentinel with
    | none =>
      have hl : l = [] := by
        apply stackMap_head_none
        rw [← hrep]
        exact hhead
      subst hl
      simp only [bid, ha, hhead]
      split
      · exact h
      next hb1 =>
      split
      · exact h
      next hb2 =>
      split
      · exact h
      next hprice =>
      exact inv_bidFinish s bidder ak auction [] price h ha hrep
        (List.chain'_singleton _) hb2 (fun e he => absurd he (List.not_mem_nil e))
    | some pv =>
      rcases pv with ⟨prev_key, prev_price⟩
      have hsent : stackMap l sentinel = some (prev_key, prev_price) := by
        rw [← hrep]
        exact hhead
      obtain ⟨hd, rest, hl, hpk, hpp⟩ := stackMap_head_some hsent
      subst hl
      simp only [bid, ha, hhead]
      split
      · exact h
      next hb1 =>
      split
      · exact h
      next hb2 =>
      split
      · exact h
      next hassigned =>
      split
      · exact h
      next hgate =>
      rw [not_not] at hgate
      have hlt : price < hd.2 := by
        have h255 : prev_price * cfg.minBidRatio.val ≤ prev_price * 255 :=
          Nat.mul_le_mul (le_refl _) (Nat.lt_succ_iff.mp cfg.minBidRatio.isLt)
        have h256 := lt_of_lt_of_le hgate h255
        rw [hpp] at h256
        omega
      have hasc2 : PricesAscend ((bidder, price) :: hd :: rest) :=
        List.chain'_cons.mpr ⟨hlt, hasc⟩
      rw [hpk]
      exact inv_bidFinish
        { s with ledger := s.ledger.unreserve (hd.1, rest.length + 1).1 auction.deposit }
        bidder ak auction (hd :: rest) price (inv_ledger _ h) ha hrep hasc2 hb2
        (harbl auction ha)

/-- The post-state of a successful `retract` satisfies the invariant. -/
theorem inv_retract_final (s : State) (ak : AKey) (auction : Auction) (led2 : Ledger)
    (hd : AccountId × Nat) (rest : List (AccountId × Nat))
    (h : Inv s)
    (ha : s.auctions ak = some auction)
    (hdisp : auction.in_dispute = false)
    (hasc : PricesAscend (hd :: rest))
    (harbl : ∀ e ∈ hd :: rest, e.1 ≠ auction.arbitrator) :
    Inv { s with
            ledger := (descend auction.deposit auction.bounty led2 rest).1,
            bids := fun x =>
              if x = ak then stackMap (descend auction.deposit auction.bounty led2 rest).2.1
              else s.bids x } := by
  obtain ⟨hasc2, harb2⟩ := descend_sublist auction.deposit auction.bounty led2
    (fun e => e.1 ≠ auction.arbitrator) rest (List.Chain'.tail hasc)
    (fun e he => harbl e (List.mem_cons_of_mem _ he))
  constructor
  · intro k2
    by_cases hk2 : k2 = ak
    · subst hk2
      refine ⟨(descend auction.deposit auction.bounty led2 rest).2.1, ?_, hasc2, ?_, ?_⟩
      · funext bk
        simp
      · intro hx
        exact absurd (show s.auctions k2 = none from hx) (by rw [ha]; simp)
      · intro a2 ha2 e he
        have ha2s : s.auctions k2 = some a2 := ha2
        rw [ha] at ha2s
        injection ha2s with ha2s
        rw [← ha2s]
        exact harb2 e he
    · obtain ⟨l2, hrep2, hasc3, hnil2, harb3⟩ := h.stack k2
      refine ⟨l2, ?_, hasc3, ?_, ?_⟩
      · show (if k2 = ak then stackMap (descend auction.deposit auction.bounty led2 rest).2.1
            else s.bids k2) = stackMap l2
        rw [if_neg hk2]
        exact hrep2
      · intro hx
        exact hnil2 hx
      · intro a2 ha2
        exact harb3 a2 ha2
  · intro o n hx
    exact h.fresh o n hx
  · intro k2 a2 hx
    exact h.time k2 a2 hx
  · intro k2 a2 hx hd2
    by_cases hk2 : k2 = ak
    · subst hk2
      have ha2s : s.auctions k2 = some a2 := hx
      rw [ha] at ha2s
      injection ha2s with ha2s
      rw [← ha2s] at hd2
      rw [hdisp] at hd2
      exact absurd hd2 (by simp)
    · show (if k2 = ak then stackMap (descend auction.deposit auction.bounty led2 rest).2.1
          else s.bids k2) sentinel ≠ none
      rw [if_neg hk2]
      exact h.disputedBid k2 a2 hx hd2

/-- Command `retract` preserves the invariant. -/
theorem inv_retract (s : State) (fuel : Nat) (bidder : AccountId) (ak : AKey)
    (h : Inv s) : Inv (retract s fuel bidder ak).1 := by
  cases ha : s.auctions ak with
  | none => simp only [retract, ha]; exact h
  | some auction =>
    obtain ⟨l, hrep, hasc, hnil, harbl⟩ := h.stack ak
    cases hhead : s.bids ak sentinel with
    | none => simp only [retract, ha, hhead]; exact h
    | some pv =>
      rcases pv with ⟨top_key, top_price⟩
      have hsent : stackMap l sentinel = some (top_key, top_price) := by
        rw [← hrep]
        exact hhead
      obtain ⟨hd, rest, hl, hpk, hpp⟩ := stackMap_head_some hsent
      subst hl
      simp only [retract, ha, hhead]
      split
      · exact h
      next hb1 =>
      split
      · exact h
      next hdisp =>
      cases htr : (if auction.is_assigned top_price s.now then
            (s.ledger.unreserve bidder auction.deposit).transfer bidder ak.1 auction.deposit
          else some (s.ledger.unreserve bidder auction.deposit)) with
      | none => exact h
      | some led2 =>
        cases hloop : retractLoop auction.deposit auction.bounty fuel (s.bids ak)
            led2 top_key with
        | none => simp only [hloop]; exact h
        | some res =>
          have hres : res = descendRes auction.deposit auction.bounty led2 rest := by
            apply (retractLoop_descend auction.deposit auction.bounty rest hd
              (headEntry (hd :: rest)) led2).2 fuel res
            rw [hpk] at hloop
            rw [hrep] at hloop
            exact hloop
          subst hres
          simp only [hloop]
          have hdispF : auction.in_dispute = false := by
            revert hdisp
            cases auction.in_dispute <;> simp
          exact inv_retract_final s ak auction led2 hd rest h ha hdispF hasc
            (harbl auction ha)

/-- Command `confirm` preserves the invariant. -/
theorem inv_confirm (s : State) (owner : AccountId) (ak : AKey) (h : Inv s) :
    Inv (confirm s owner ak).1 := by
  cases ha : s.auctions ak with
  | none => simp only [confirm, ha]; exact h
  | some auction =>
    cases hhead : s.bids ak sentinel with
    | none =>
      simp only [confirm, ha, hhead]
      split
      · exact h
      · exact h
    | some pv =>
      rcases pv with ⟨bk, price⟩
      rcases bk with ⟨bidder, seq⟩
      simp only [confirm, ha, hhead]
      split
      · exact h
      split
      · exact h
      cases htr : ((s.ledger.unreserve bidder auction.deposit).unreserve owner
          (auction.deposit + auction.bounty)).transfer owner bidder price with
      | none => simp only [htr]; exact h
      | some led1 => simp only [htr]; exact inv_remove s led1 ak h

/-- Command `cancel` preserves the invariant. -/
theorem inv_cancel (s : State) (owner : AccountId) (ak : AKey) (h : Inv s) :
    Inv (cancel s owner ak).1 := by
  cases ha : s.auctions ak with
  | none => simp only [cancel, ha]; exact h
  | some auction =>
    cases hhead : s.bids ak sentinel with
    | none =>
      simp only [cancel, ha, hhead]
      split
      · exact h
      · exact inv_remove s (s.ledger.unreserve owner (auction.deposit + auction.bounty)) ak h
    | some pv =>
      rcases pv with ⟨bk, price⟩
      rcases bk with ⟨bidder, seq⟩
      simp only [cancel, ha, hhead]
      split
      · exact h
      split
      · exact h
      cases htr : ((s.ledger.unreserve bidder auction.deposit).unreserve owner
          (auction.deposit + auction.bounty)).transfer owner bidder auction.deposit with
      | none => simp only [htr]; exact h
      | some led1 => simp only [htr]; exact inv_remove s led1 ak h

/-- Command `dispute` preserves the invariant. -/
theorem inv_dispute (s : State) (origin : AccountId) (ak : AKey) (h : Inv s) :
    Inv (dispute s origin ak).1 := by
  cases ha : s.auctions ak with
  | none => simp only [dispute, ha]; exact h
  | some auction =>
    cases hhead : s.bids ak sentinel with
    | none =>
      simp only [dispute, ha, hhead]
      split
      · exact h
      · exact h
    | some pv =>
      rcases pv with ⟨bk, price⟩
      rcases bk with ⟨bidder, seq⟩
      simp only [dispute, ha, hhead]
      split
      · exact h
      split
      · exact h
      split
      · exact h
      · exact inv_insert_update s s.ledger ak auction
          { auction with in_dispute := true } h ha rfl rfl
          (fun _ => by rw [hhead]; simp)

/-- Command `arbitrate` preserves the invariant. -/
theorem inv_arbitrate (s : State) (signer : AccountId) (ak : AKey) (fulfilled : Bool)
    (h : Inv s) : Inv (arbitrate s signer ak fulfilled).1 := by
  cases ha : s.auctions ak with
  | none => simp only [arbitrate, ha]; exact h
  | some auction =>
    cases hhead : s.bids ak sentinel with
    | none =>
      simp only [arbitrate, ha, hhead]
      split
      · exact h
      split
      · exact h
      · exact h
    | some pv =>
      rcases pv with ⟨bk, price⟩
      rcases bk with ⟨bidder, seq⟩
      simp only [arbitrate, ha, hhead]
      split
      · exact h
      split
      · exact h
      cases htr1 : (if fulfilled then
          ((s.ledger.unreserve ak.1 (auction.deposit + auction.bounty)).unreserve bidder
            auction.deposit).transfer ak.1 bidder price
        else some ((s.ledger.unreserve ak.1 (auction.deposit + auction.bounty)).unreserve
            bidder auction.deposit)) with
      | none => simp only [htr1]; exact h
      | some led1 =>
        simp only [htr1]
        cases htr2 : led1.transfer (if fulfilled then ak.1 else bidder) signer
            auction.deposit with
        | none => simp only [htr2]; exact h
        | some led2 => simp only [htr2]; exact inv_remove s led2 ak h

/-- One dispatched extrinsic preserves the invariant. -/
theorem inv_dispatch (cfg : Config) (signer : AccountId) (c : Cmd) (s : State)
    (h : Inv s) : Inv (dispatch cfg signer c s).1 := by
  have hsb : Inv { s with nonce := updFn s.nonce signer (s.nonce signer + 1) } := by
    refine inv_of_core s _ rfl rfl ?_ (le_refl _) h
    intro o
    by_cases ho : o = signer
    · subst ho; simp [updFn]
    · simp [updFn, ho]
  cases c with
  | create arb bounty deposit terminal data =>
    apply inv_create cfg _ signer arb bounty deposit terminal data hsb
    show s.auctions (signer, updFn s.nonce signer (s.nonce signer + 1) signer) = none
    rw [show updFn s.nonce signer (s.nonce signer + 1) signer = s.nonce signer + 1 by
      simp [updFn]]
    cases hx : s.auctions (signer, s.nonce signer + 1) with
    | none => rfl
    | some a0 =>
      have h2 := h.fresh signer (s.nonce signer + 1) (by rw [hx]; simp)
      omega
  | extend k bounty terminal => exact inv_extend _ signer k bounty terminal hsb
  | bid k price => exact inv_bid cfg _ signer k price hsb
  | retract fuel k => exact inv_retract _ fuel signer k hsb
  | confirm k => exact inv_confirm _ signer k hsb
  | cancel k => exact inv_cancel _ signer k hsb
  | dispute k => exact inv_dispute _ signer k hsb
  | arbitrate k fulfilled => exact inv_arbitrate _ signer k fulfilled hsb

/-- Each step of the chain preserves the invariant. -/
theorem inv_step {cfg : Config} {s s' : State} (h : Inv s) (hs : Step cfg s s') :
    Inv s' := by
  cases hs with
  | mk signer c n' hnow hout =>
    apply inv_dispatch
    exact inv_of_core s { s with now := n' } rfl rfl (fun _ => le_refl _) hnow h

/-- Genesis states satisfy the invariant. -/
theorem inv_init {s : State} (h : InitState s) : Inv s := by
  obtain ⟨ha, hb⟩ := h
  constructor
  · intro k
    refine ⟨[], ?_, List.chain'_nil, fun _ => rfl, ?_⟩
    · rw [hb, stackMap_nil]
    · intro a2 ha2
      rw [ha] at ha2
      exact absurd ha2 (by simp)
  · intro o n hx
    rw [ha] at hx
    exact absurd rfl hx
  · intro k a2 hx
    rw [ha] at hx
    exact absurd hx (by simp)
  · intro k a2 hx
    rw [ha] at hx
    exact absurd hx (by simp)

/-- Every reachable state satisfies the invariant. -/
theorem reachable_inv {cfg : Config} {s : State} (h : Reachable cfg s) : Inv s := by
  obtain ⟨s0, h0, hsteps⟩ := h
  induction hsteps with
  | refl => exact inv_init h0
  | tail hst hstep ih => exact inv_step ih hstep

/-!  Concrete traces used by counterexamples and witnesses. -/

/-- A genesis state: every account holds 10000 free. -/
def s0 : State :=
  { auctions := fun _ => none, bids := fun _ _ => none,
    ledger := ⟨fun _ => 10000, fun _ => 0⟩, nonce := fun _ => 0, now := 1 }

/-- After `create(owner 10, arbitrator 11, bounty 1000, deposit 500,
terminal 5)` at block 1; the auction key is `(10, 1)`. -/
def c2s1 : State := (dispatch cfg0 10 (.create 11 1000 500 5 []) { s0 with now := 1 }).1

/-- Then `bid(12, 900)` at block 1. -/
def c2s2 : State := (dispatch cfg0 12 (.bid (10, 1) 900) { c2s1 with now := 1 }).1

/-- Then `bid(13, 800)` at block 1. -/
def c2s3 : State := (dispatch cfg0 13 (.bid (10, 1) 800) { c2s2 with now := 1 }).1

/-- Or instead, from the one-bid state, `dispute(10)` at block 10
(the auction is assigned by then). -/
def c7s3 : State := (dispatch cfg0 10 (.dispute (10, 1)) { c2s2 with now := 10 }).1

theorem reach_c2s1_aux : Relation.ReflTransGen (Step cfg0) s0 c2s1 :=
  Relation.ReflTransGen.single
    (Step.mk s0 10 (.create 11 1000 500 5 []) 1 (by decide) (by decide))

theorem reach_c2s2_aux : Relation.ReflTransGen (Step cfg0) s0 c2s2 :=
  Relation.ReflTransGen.tail reach_c2s1_aux
    (Step.mk c2s1 12 (.bid (10, 1) 900) 1 (by decide) (by decide))

theorem reach_c2s3 : Reachable cfg0 c2s3 :=
  ⟨s0, ⟨rfl, rfl⟩, Relation.ReflTransGen.tail reach_c2s2_aux
    (Step.mk c2s2 13 (.bid (10, 1) 800) 1 (by decide) (by decide))⟩

theorem reach_c7s3 : Reachable cfg0 c7s3 :=
  ⟨s0, ⟨rfl, rfl⟩, Relation.ReflTransGen.tail reach_c2s2_aux
    (Step.mk c2s2 10 (.dispute (10, 1)) 10 (by decide) (by decide))⟩

/-- The claim's reading of C2: walking the chain from the top bid down
toward the sentinel, the stored prices strictly decrease (each entry's
price exceeds its predecessor entry's stored price). -/
def ChainDecTowardSentinel (s : State) : Prop :=
  ∀ k bk pk p w, s.bids k bk = some (pk, p) → bk ≠ sentinel → pk ≠ sentinel →
    s.bids k pk = some w → w.2 < p

/-- C2 counterexample: in the reachable state `c2s3` (create, bid 900,
bid 800) the chain from the top bid carries prices 800 then 900 —
increasing, not decreasing, toward the sentinel. -/
theorem C2_counterexample : Reachable cfg0 c2s3 ∧ ¬ ChainDecTowardSentinel c2s3 := by
  refine ⟨reach_c2s3, ?_⟩
  intro hq
  have h1 : c2s3.bids (10, 1) (13, 2) = some ((12, 1), 800) := by decide
  have h2 : c2s3.bids (10, 1) (12, 1) = some (sentinel, 900) := by decide
  have h3 := hq (10, 1) (13, 2) (12, 1) 800 (sentinel, 900) h1 (by decide) (by decide) h2
  exact absurd h3 (by decide)

/-- C2 (amended): after every command, along every auction's chain from
the top bid down to the sentinel the stored prices strictly increase
(equivalently: in push order, each new bid is strictly cheaper than its
predecessor). -/
theorem C2_stack_monotonic {cfg : Config} {s : State} (h : Reachable cfg s) :
    ∀ k bk pk p w, s.bids k bk = some (pk, p) → bk ≠ sentinel → pk ≠ sentinel →
      s.bids k pk = some w → p < w.2 := by
  intro k bk pk p w h1 hbk hpk h2
  obtain ⟨l, hrep, hasc, _, _⟩ := (reachable_inv h).stack k
  rw [hrep] at h1 h2
  rw [stackMap_ne_sentinel hbk] at h1
  rw [stackMap_ne_sentinel hpk] at h2
  exact nodes_link_lt hasc h1 hpk h2

/-- Witness for the amended C2: at `c2s3` the top bid 800 is strictly
below its predecessor's 900. -/
theorem C2_stack_monotonic_witness : (800 : Nat) < 900 :=
  C2_stack_monotonic reach_c2s3 (10, 1) (13, 2) (12, 1) 800 (sentinel, 900)
    (by decide) (by decide) (by decide) (by decide)

/-- C7: in every reachable state, a disputed auction record has a head
entry in its bid stack, so the head lookup `arbitrate` unwraps cannot
fail on a disputed auction (and `retract`, the only bid-removing command
that can leave the record in place, is refused while `in_dispute`). -/
theorem C7_disputed_has_top {cfg : Config} {s : State} (h : Reachable cfg s) :
    ∀ k a, s.auctions k = some a → a.in_dispute = true →
      s.bids k sentinel ≠ none :=
  (reachable_inv h).disputedBid

/-- Witness for C7 at the reachable disputed state `c7s3`. -/
theorem C7_disputed_has_top_witness : c7s3.bids (10, 1) sentinel ≠ none :=
  C7_disputed_has_top reach_c7s3 (10, 1) ⟨11, 1000, 500, 1, 5, [], true⟩
    (by decide) rfl

/-- The claim C9 as stated: the arbitrator differs from the owner and
from every bidder in the stack. -/
def ArbitratorDistinct (s : State) : Prop :=
  ∀ k a, s.auctions k = some a →
    a.arbitrator ≠ k.1 ∧
    (∀ bk v, s.bids k bk = some v → bk ≠ sentinel → bk.1 ≠ a.arbitrator)

/-- C9 counterexample: `create` never checks `arbitrator ≠ owner`, so a
single reachable step produces a live auction whose arbitrator is its
owner. -/
theorem C9_counterexample :
    Reachable cfg0 (dispatch cfg0 10 (.create 10 1000 500 5 []) { s0 with now := 1 }).1 ∧
    ¬ ArbitratorDistinct (dispatch cfg0 10 (.create 10 1000 500 5 []) { s0 with now := 1 }).1 := by
  refine ⟨⟨s0, ⟨rfl, rfl⟩, Relation.ReflTransGen.single
    (Step.mk s0 10 (.create 10 1000 500 5 []) 1 (by decide) (by decide))⟩, ?_⟩
  intro hq
  have h1 : (dispatch cfg0 10 (.create 10 1000 500 5 []) { s0 with now := 1 }).1.auctions
      (10, 1) = some ⟨10, 1000, 500, 1, 5, [], false⟩ := by decide
  exact (hq (10, 1) ⟨10, 1000, 500, 1, 5, [], false⟩ h1).1 rfl

/-- C9 (amended): in every reachable state, the arbitrator of a live
auction differs from the bidder of every bid in that auction's stack
(the owner check of the original claim does not hold: `create` accepts
`arbitrator = owner`). -/
theorem C9_arbitrator_not_bidder {cfg : Config} {s : State} (h : Reachable cfg s) :
    ∀ k a, s.auctions k = some a →
      ∀ bk v, s.bids k bk = some v → bk ≠ sentinel → bk.1 ≠ a.arbitrator := by
  intro k a ha bk v hbk hbs
  obtain ⟨l, hrep, _, _, harb⟩ := (reachable_inv h).stack k
  rw [hrep, stackMap_ne_sentinel hbs] at hbk
  obtain ⟨e, he, h1, _⟩ := nodes_mem hbk
  rw [h1]
  exact harb a ha e he

/-- Witness for the amended C9 at `c2s2`: bidder 12 differs from
arbitrator 11. -/
theorem C9_arbitrator_not_bidder_witness : (12 : AccountId) ≠ 11 :=
  C9_arbitrator_not_bidder ⟨s0, ⟨rfl, rfl⟩, reach_c2s2_aux⟩ (10, 1)
    ⟨11, 1000, 500, 1, 5, [], false⟩ (by decide) (12, 1) (sentinel, 900)
    (by decide) (by decide)

/-- C10: for every live record of a reachable state, `initial_block ≤ now`
(so the block-number subtraction in `get_base_price` cannot underflow), and
whenever the division branch is taken (`now < terminal_block`) the divisor
`terminal_block - initial_block` is positive (no division by zero). -/
theorem C10_base_price_safe {cfg : Config} {s : State} (h : Reachable cfg s) :
    ∀ k a, s.auctions k = some a →
      a.initial_block ≤ s.now ∧
      (s.now < a.terminal_block → 0 < a.terminal_block - a.initial_block) := by
  intro k a ha
  have h1 := (reachable_inv h).time k a ha
  exact ⟨h1, fun h2 => by omega⟩

/-- Witness for C10 at the reachable state `c2s1`. -/
theorem C10_base_price_safe_witness :
    (1 : Nat) ≤ c2s1.now ∧ (c2s1.now < 5 → 0 < 5 - 1) :=
  C10_base_price_safe ⟨s0, ⟨rfl, rfl⟩, reach_c2s1_aux⟩ (10, 1)
    ⟨11, 1000, 500, 1, 5, [], false⟩ (by decide)

/-!  C1, C5, C8: error-handling and the bid price gate. -/

/-- Concrete state for C1: auction `akW` live with top bid `(12, 900)`
and 12's deposit of 500 reserved; account 13 has only 100 free. -/
def sC1 : State :=
  { auctions := fun k => if k = akW then some aW else none,
    bids := fun k => if k = akW then stackMap [(12, 900)] else fun _ => none,
    ledger := ⟨fun x => if x = 13 then 100 else 10000,
               fun x => if x = 12 then 500 else 0⟩,
    nonce := fun _ => 2,
    now := 1 }

/-- C1 fails on the code: when 13 bids 800 with insufficient free balance,
`bid` first unreserves the previous top bidder 12's deposit (lib.rs line
212) and only then attempts the fallible reserve (line 220); the command
returns `InsufficientBalance`, yet 12's reserved balance has dropped from
500 to 0 (on this pre-transactional runtime the mutation persists).  The
bid stack itself is unchanged. -/
theorem C1_bid_unreserve_leak :
    (bid cfg0 sC1 13 akW 800).2 = .err .InsufficientBalance ∧
    sC1.ledger.reserved 12 = 500 ∧
    (bid cfg0 sC1 13 akW 800).1.ledger.reserved 12 = 0 ∧
    (bid cfg0 sC1 13 akW 800).1.bids akW sentinel = sC1.bids akW sentinel := by
  refine ⟨by decide, by decide, by decide, by decide⟩

/-- C5: the bid price gate.  For a live auction whose caller is neither
owner nor arbitrator: with an unassigned top bid at `pp`, a bid at `price`
can succeed only if `price < pp`, and always fails with
`MinBidRatioRequired` when `price ≥ pp`; with no top bid, it can succeed
only if `price ≤ bounty`, and always fails with `MinBidRatioRequired` when
`price > bounty`.  (The gate itself is
`prev_price * MinBidRatio > price * 255` with `MinBidRatio : u8`, which
entails strict decrease.) -/
theorem C5_bid_price_gate (cfg : Config) (s : State) (bidder : AccountId) (ak : AKey)
    (price : Nat) (a : Auction)
    (ha : s.auctions ak = some a)
    (h1 : bidder ≠ ak.1) (h2 : bidder ≠ a.arbitrator) :
    (∀ pk pp, s.bids ak sentinel = some (pk, pp) → ¬ a.is_assigned pp s.now →
      ((∀ e, (bid cfg s bidder ak price).2 = .ok e → price < pp) ∧
       (pp ≤ price → (bid cfg s bidder ak price).2 = .err .MinBidRatioRequired))) ∧
    (s.bids ak sentinel = none →
      ((∀ e, (bid cfg s bidder ak price).2 = .ok e → price ≤ a.bounty) ∧
       (a.bounty < price → (bid cfg s bidder ak price).2 = .err .MinBidRatioRequired))) := by
  constructor
  · intro pk pp hhead hnass
    simp only [bid, ha, hhead]
    rw [if_neg h1, if_neg h2, if_neg hnass]
    by_cases hgate : price * 255 < pp * cfg.minBidRatio.val
    · rw [if_neg (not_not_intro hgate)]
      have h255 : pp * cfg.minBidRatio.val ≤ pp * 255 :=
        Nat.mul_le_mul (le_refl _) (Nat.lt_succ_iff.mp cfg.minBidRatio.isLt)
      have hlt : price < pp := by
        have := lt_of_lt_of_le hgate h255
        omega
      constructor
      · intro e _
        exact hlt
      · intro hle
        omega
    · rw [if_pos hgate]
      constructor
      · intro e he
        exact absurd he (by simp)
      · intro _
        rfl
  · intro hhead
    simp only [bid, ha, hhead]
    rw [if_neg h1, if_neg h2]
    by_cases hple : price ≤ a.bounty
    · rw [if_neg (not_not_intro hple)]
      constructor
      · intro e _
        exact hple
      · intro hlt
        omega
    · rw [if_pos hple]
      constructor
      · intro e he
        exact absurd he (by simp)
      · intro _
        rfl

/-- Witness for C5: in `sW` (top bid 800, unassigned) a bid of 900 by the
outsider 14 fails with `MinBidRatioRequired`. -/
theorem C5_bid_price_gate_witness :
    (bid cfg0 sW 14 akW 900).2 = .err .MinBidRatioRequired :=
  ((C5_bid_price_gate cfg0 sW 14 akW 900 aW (by decide) (by decide) (by decide)).1
    (13, 2) 800 (by decide) (by decide)).2 (by decide)

/-- C8 fails on the code: `arbitrate` on a live, non-disputed auction by
its arbitrator returns `Error::AuctionDisputed` (lib.rs line 371), not the
`AuctionNotDisputed` variant that the claim, the spec's error table and
the pallet's own tests (tests.rs lines 396-400 and 422-426) require. -/
theorem C8_arbitrate_error_name :
    (arbitrate sW 11 akW false).2 = .err .AuctionDisputed ∧
    Err.AuctionDisputed ≠ Err.AuctionNotDisputed := by
  refine ⟨by decide, by decide⟩

end TaskAuction
